import Mathlib

/-!
Shallow embedding of `src/plugins/kicad_better_bom.py`, a KiCad BOM plugin
that groups components by a custom equivalence predicate and writes a CSV.

Component records are supplied by the external `kicad_netlist_reader`
library; the spec describes them as entities with a reference designator,
a value, a part name, a footprint, and a list of named string fields.
Python `None` results are modelled with `Option`; Python lists with
`List`; Python sets of HMT field names with duplicate-free filtered lists
(the script only folds a commutative conjunction over them, so iteration
order is irrelevant).  The script targets Python 2 (its first statement
is the future-import of print_function), where `map` returns a list, so
`map` is modelled as `List.map`.
-/

namespace KicadBetterBom

/-- Component record, as supplied by the external netlist reader: a
reference designator, value, part name, footprint, and named fields. -/
structure Comp where
  ref : String
  value : String
  partName : String
  footprint : String
  fields : List (String × String)
deriving Repr, DecidableEq, Inhabited

/-- Modelled from the spec: the external reader's `comp.getFieldNames()`
returns the names of the component's fields. -/
def Comp.getFieldNames (c : Comp) : List String :=
  c.fields.map Prod.fst

/-- Modelled from the spec: the external reader's `comp.getField(name)`
returns the value of the (first) field with exactly that name. -/
def Comp.getField (c : Comp) (name : String) : String :=
  ((c.fields.find? (fun f => f.1 = name)).map Prod.snd).getD ""

/-- Embedding of the external reader accessor `comp.getValue()`. -/
def Comp.getValue (c : Comp) : String := c.value

/-- Embedding of the external reader accessor `comp.getPartName()`. -/
def Comp.getPartName (c : Comp) : String := c.partName

/-- Embedding of the external reader accessor `comp.getFootprint()`. -/
def Comp.getFootprint (c : Comp) : String := c.footprint

/-- Embedding of the external reader accessor `comp.getRef()`. -/
def Comp.getRef (c : Comp) : String := c.ref

/-- Embedding of the script helper `toLower` (Python `str.lower()`):
characterwise lower-casing, written over the character list so that it
reduces in the kernel. -/
def toLower (s : String) : String := ⟨s.data.map Char.toLower⟩

/-- Embedding of `hmtFieldNames = [desc, mfg1, mfg1pn, mfg2, mfg2pn]`. -/
def hmtFieldNames : List String :=
  ["description", "mfg1", "mfg1pn", "mfg2", "mfg2pn"]

/-- Embedding of `getCaseInsensitiveField(comp, fieldName)`: lower-case all field
names and the requested name, return `None` when the lowered name does
not occur, otherwise `comp.getField` at the original name sitting at the
first matching index (`list.index` returns the first occurrence). -/
def getCaseInsensitiveField (comp : Comp) (fieldName : String) : Option String :=
  let fieldNames := comp.getFieldNames.map toLower
  let fn := toLower fieldName
  match fieldNames.findIdx? (fun n => n = fn) with
  | none => none
  | some i => (comp.getFieldNames.get? i).map comp.getField

/-- Embedding of the set `allFieldNames = (lowered comp names ∩ hmt) ∪ (lowered other
names ∩ hmt)` of `equByHMTFields`, as a duplicate-free list: the HMT
names present (case-insensitively) on at least one side. -/
def hmtUnion (comp other : Comp) : List String :=
  hmtFieldNames.filter (fun n =>
    (comp.getFieldNames.map toLower).contains n
      || (other.getFieldNames.map toLower).contains n)

/-- Embedding of `equByHMTFields(comp, other)`: `None` when no HMT field occurs on
either side, otherwise the conjunction, over the union of HMT field
names, of equality of the two case-insensitive lookups. -/
def equByHMTFields (comp other : Comp) : Option Bool :=
  let allFieldNames := hmtUnion comp other
  if allFieldNames.length = 0 then
    none
  else
    some (allFieldNames.foldl
      (fun result name =>
        result && (getCaseInsensitiveField comp name == getCaseInsensitiveField other name))
      true)

/-- Embedding of `myEqu(self, other)`: return the HMT result when it is not `None`;
otherwise `result` stays `None` unless one of the value / part-name /
footprint comparisons sets it to `False`, and is returned as is (the
source never assigns `True` on this path). -/
def myEqu (self other : Comp) : Option Bool :=
  let result := equByHMTFields self other
  if result ≠ none then
    result
  else if self.getValue ≠ other.getValue then
    some false
  else if self.getPartName ≠ other.getPartName then
    some false
  else if self.getFootprint ≠ other.getFootprint then
    some false
  else
    result

/-- The script's exclusion loop: append each component whose
case-insensitive `exclude` field is `None`. -/
def filteredComponents (components : List Comp) : List Comp :=
  components.foldl
    (fun acc component =>
      if getCaseInsensitiveField component "exclude" = none then acc ++ [component] else acc)
    []

/-- Embedding of `columns`, the fixed output schema. -/
def columns : List String :=
  ["Qty", "Reference(s)", "description", "mfg1", "mfg1pn", "mfg2", "mfg2pn"]

/-- The reference-joining loop of the group loop: start from `""`, and
for each component append `", "` first when the accumulator is
non-empty, then the component's reference. -/
def buildRefs (group : List Comp) : String :=
  group.foldl
    (fun refs component =>
      (if refs.length > 0 then refs ++ ", " else refs) ++ component.getRef)
    ""

/-- Modelled from the spec: the external reader's
`net.getGroupField(group, field)` reads the field value, via the Field
Accessor, from the group's representative component — the last-visited
component of the iteration — with absence rendered as the empty string. -/
def getGroupField (group : List Comp) (field : String) : String :=
  match getCaseInsensitiveField (group.getLastD default) field with
  | some v => v
  | none => ""

/-- One output row of the group loop: the group size (stringified by
`writerow`), the joined references, then one cell per remaining column
via `net.getGroupField`. -/
def rowOf (group : List Comp) : List String :=
  [toString group.length, buildRefs group]
    ++ (columns.drop 2).map (fun field => getGroupField group field)

/-- Embedding of `rowValueForName(name)` of the aux-merge loop: a `csv.DictReader` row
maps each header field name to the cell text; the row is modelled as an
association list keyed by field name. -/
def rowValueForName (row : List (String × String)) (name : String) : String :=
  ((row.find? (fun cell => cell.1 = name)).map Prod.snd).getD ""

/-- Modelled from the spec: the external reader's
`net.groupComponents(components)` appends each component to the first
existing group whose representative (first element) is equivalent to it,
and otherwise starts a new group, so groups appear in order of first
encounter.  The predicate is a parameter; the script installs `myEqu`
(truthy exactly on `True`). -/
def addToGroups (equ : Comp → Comp → Bool) (groups : List (List Comp)) (c : Comp) :
    List (List Comp) :=
  match groups with
  | [] => [[c]]
  | g :: rest =>
    if equ c (g.headD default) then (g ++ [c]) :: rest
    else g :: addToGroups equ rest c

/-- Modelled from the spec: the grouping pass over the whole filtered
component list (see `addToGroups`). -/
def groupComponents (equ : Comp → Comp → Bool) (components : List Comp) :
    List (List Comp) :=
  components.foldl (addToGroups equ) []

/-- Truthiness of `myEqu` as used by the external grouper's
`if c == g[0]` test: only Python `True` is truthy (`False` and `None`
are falsy). -/
def myEquTruthy (a b : Comp) : Bool :=
  myEqu a b == some true

/-- Observable effects of one script run, in order. -/
inductive Effect where
  | usageMessage
  | exitCode (n : Nat)
  | loadNetlist
  | writeRow (cells : List String)
  | auxFoundDiag
  | auxSchemaDiag
  | auxMissingDiag
deriving Repr, DecidableEq

/-- The aux-merge tail of the script: missing file prints the no-aux
diagnostic; otherwise the found diagnostic, then either the schema
diagnostic (when the fixed columns are not a subset of the header) or
one `writerow` per data row with cells projected to `columns`. -/
def auxEffects (aux : Option (List String × List (List (String × String)))) :
    List Effect :=
  match aux with
  | none => [Effect.auxMissingDiag]
  | some (fieldnames, rows) =>
    Effect.auxFoundDiag ::
      (if ¬ (columns.all (fun c => fieldnames.contains c)) then
        [Effect.auxSchemaDiag]
      else
        rows.map (fun row => Effect.writeRow (columns.map (rowValueForName row))))

/-- The whole script as an effect trace: wrong argument count prints the
usage message and exits 1 before anything else; otherwise the netlist is
loaded, the header and one row per group are written, and the aux tail
runs.  `argv` includes the script name; `netlistComponents` models the
external loader's interesting components; `aux` the optional aux CSV as
header names and data rows. -/
def scriptTrace (argv : List String) (netlistComponents : List Comp)
    (aux : Option (List String × List (List (String × String)))) : List Effect :=
  if argv.length ≠ 3 then
    [Effect.usageMessage, Effect.exitCode 1]
  else
    Effect.loadNetlist ::
      Effect.writeRow columns ::
        ((groupComponents myEquTruthy (filteredComponents netlistComponents)).map
          (fun group => Effect.writeRow (rowOf group)))
      ++ auxEffects aux

/-- Specification-side conjunction over the HMT union: every
case-insensitive lookup agrees between the two components, absence
comparing as the absence marker. -/
def hmtAllEq (a b : Comp) : Bool :=
  decide (∀ n ∈ hmtUnion a b,
    getCaseInsensitiveField a n = getCaseInsensitiveField b n)

/-- Helper projecting the cells out of a `writeRow` effect. -/
def writtenCells : Effect → Option (List String)
  | Effect.writeRow cells => some cells
  | _ => none

/-- Concrete component: a bare resistor with no named fields. -/
def compR1 : Comp :=
  { ref := "R1", value := "10k", partName := "R", footprint := "0603", fields := [] }

/-- Concrete component: identical to `compR1` except for the reference. -/
def compR2 : Comp :=
  { ref := "R2", value := "10k", partName := "R", footprint := "0603", fields := [] }

/-- Concrete component carrying a `Description` HMT field. -/
def compD1 : Comp :=
  { ref := "R4", value := "10k", partName := "R", footprint := "0603",
    fields := [("Description", "X")] }

/-- Concrete component with a differently-cased `DESCRIPTION` field and a
different value, part name and footprint. -/
def compD2 : Comp :=
  { ref := "R5", value := "99k", partName := "Q", footprint := "SOT23",
    fields := [("DESCRIPTION", "X")] }

/-- Concrete component with one `MFG1` field. -/
def compM1 : Comp :=
  { ref := "U1", value := "v", partName := "p", footprint := "f",
    fields := [("MFG1", "Acme")] }

/-- Concrete group whose first component has an empty reference
designator. -/
def groupEmptyRef : List Comp :=
  [{ ref := "", value := "v", partName := "p", footprint := "f", fields := [] },
   { ref := "R9", value := "v", partName := "p", footprint := "f", fields := [] }]

/-- Concrete pair used to instantiate the amended row-builder claim. -/
def compQ1 : Comp :=
  { ref := "C1", value := "100n", partName := "C", footprint := "0402", fields := [] }

/-- Concrete second component for the amended row-builder claim. -/
def compQ2 : Comp :=
  { ref := "C2", value := "100n", partName := "C", footprint := "0402", fields := [] }

/-- Concrete aux-CSV header containing every fixed column plus one
extra. -/
def auxHeaderW : List String :=
  ["Qty", "Reference(s)", "description", "mfg1", "mfg1pn", "mfg2", "mfg2pn", "extra"]

/-- Concrete aux-CSV data rows for the aux-merge claim. -/
def auxRowsW : List (List (String × String)) :=
  [[("Qty", "9"), ("Reference(s)", "X1"), ("description", "d"), ("mfg1", "m"),
    ("mfg1pn", "p"), ("mfg2", "m2"), ("mfg2pn", "p2"), ("extra", "e")]]

/-! ### Generic helper lemmas -/

theorem foldl_and_eq {α : Type} (l : List α) (p : α → Bool) (b : Bool) :
    l.foldl (fun r x => r && p x) b = (b && l.all p) := by
  induction l generalizing b with
  | nil => simp
  | cons x xs ih => simp [ih, Bool.and_assoc]

theorem foldl_congr_mem {α β : Type} {f g : β → α → β} (l : List α) (b : β)
    (h : ∀ acc x, x ∈ l → f acc x = g acc x) :
    l.foldl f b = l.foldl g b := by
  induction l generalizing b with
  | nil => rfl
  | cons x xs ih =>
    rw [List.foldl_cons, List.foldl_cons, h b x (List.mem_cons_self x xs)]
    exact ih _ fun acc y hy => h acc y (List.mem_cons_of_mem x hy)

/-! ### Characterization of the Field Accessor -/

theorem getCaseInsensitiveField_eq_none_iff (c : Comp) (n : String) :
    getCaseInsensitiveField c n = none ↔
      toLower n ∉ c.getFieldNames.map toLower := by
  simp only [getCaseInsensitiveField]
  split
  case _ heq =>
    rw [List.findIdx?_eq_none_iff] at heq
    simp only [true_iff]
    intro hmem
    have := heq _ hmem
    simp at this
  case _ i heq =>
    rw [List.findIdx?_eq_some_iff_getElem] at heq
    obtain ⟨hlt, hpred, -⟩ := heq
    have hmem : toLower n ∈ c.getFieldNames.map toLower := by
      have := List.getElem_mem hlt
      simp only [decide_eq_true_iff] at hpred
      rwa [hpred] at this
    have hlt' : i < c.getFieldNames.length := by
      simpa using hlt
    simp [List.get?_eq_getElem?, List.getElem?_eq_getElem hlt', hmem]

/-! ### HMT path lemmas -/

theorem hmt_toLower_self : ∀ n ∈ hmtFieldNames, toLower n = n := by decide

theorem equByHMTFields_eq_some (a b : Comp) (h : hmtUnion a b ≠ []) :
    equByHMTFields a b = some (hmtAllEq a b) := by
  have hlen : ¬ (hmtUnion a b).length = 0 := by
    simpa [List.length_eq_zero] using h
  simp only [equByHMTFields, if_neg hlen]
  congr 1
  rw [foldl_and_eq (p := fun name =>
    getCaseInsensitiveField a name == getCaseInsensitiveField b name), Bool.true_and]
  rw [Bool.eq_iff_iff]
  simp [hmtAllEq, List.all_eq_true]

theorem myEqu_hmt_path (a b : Comp) (h : hmtUnion a b ≠ []) :
    myEqu a b = some (hmtAllEq a b) := by
  have he := equByHMTFields_eq_some a b h
  simp [myEqu, he]

theorem mem_hmtUnion_iff (a b : Comp) (n : String) :
    n ∈ hmtUnion a b ↔
      n ∈ hmtFieldNames ∧
        (toLower n ∈ a.getFieldNames.map toLower
          ∨ toLower n ∈ b.getFieldNames.map toLower) := by
  constructor
  · intro hn
    rw [hmtUnion, List.mem_filter] at hn
    obtain ⟨hmem, hpred⟩ := hn
    rw [hmt_toLower_self n hmem]
    simp only [Bool.or_eq_true, List.contains_iff_exists_mem_beq] at hpred
    refine ⟨hmem, ?_⟩
    rcases hpred with h | h <;> [left; right] <;>
      · obtain ⟨x, hx, hbeq⟩ := h
        rwa [show n = x from by simpa using hbeq]
  · rintro ⟨hmem, hpred⟩
    rw [hmt_toLower_self n hmem] at hpred
    rw [hmtUnion, List.mem_filter]
    refine ⟨hmem, ?_⟩
    simp only [Bool.or_eq_true, List.contains_iff_exists_mem_beq]
    rcases hpred with h | h <;> [left; right] <;> exact ⟨n, h, by simp⟩

/-! ### Symmetry lemmas -/

theorem hmtUnion_comm (a b : Comp) : hmtUnion a b = hmtUnion b a := by
  unfold hmtUnion
  apply List.filter_congr
  intro n _
  rw [Bool.or_comm]

theorem equByHMTFields_comm (a b : Comp) :
    equByHMTFields a b = equByHMTFields b a := by
  simp only [equByHMTFields, hmtUnion_comm a b]
  congr 1
  exact congrArg some (foldl_congr_mem _ _ fun acc n _ => by rw [Bool.beq_comm])

/-- C10: the equivalence predicate `myEqu` is symmetric — for every two
component records `a` and `b`, `myEqu a b` returns the same result
(`True`, `False` or `None`) as `myEqu b a`. -/
theorem c10_myEqu_symmetric (a b : Comp) : myEqu a b = myEqu b a := by
  simp only [myEqu, equByHMTFields_comm a b]
  by_cases h1 : equByHMTFields b a ≠ none
  · rw [if_pos h1, if_pos h1]
  · rw [if_neg h1, if_neg h1]
    by_cases hv : a.getValue = b.getValue
    · by_cases hp : a.getPartName = b.getPartName
      · by_cases hf : a.getFootprint = b.getFootprint
        · simp [hv, hp, hf]
        · simp [hv, hp, hf, Ne.symm hf]
      · simp [hv, hp, Ne.symm hp]
    · simp [hv, Ne.symm hv]

/-! ### Reference-join lemmas -/

theorem str_ne_empty_iff (s : String) : s ≠ "" ↔ s.data ≠ [] := by
  constructor
  · intro h hdata
    exact h (String.ext hdata)
  · intro h heq
    exact h (by rw [heq])

theorem str_length_pos (s : String) (h : s.data ≠ []) : s.length > 0 := by
  have : s.length = s.data.length := rfl
  rw [this]
  exact List.length_pos.mpr h

theorem buildRefs_go (l : List Comp) (acc : String) (h : acc.data ≠ []) :
    l.foldl (fun refs component =>
      (if refs.length > 0 then refs ++ ", " else refs) ++ component.getRef) acc
      = String.intercalate.go acc ", " (l.map Comp.getRef) := by
  induction l generalizing acc with
  | nil => rfl
  | cons c cs ih =>
    rw [List.foldl_cons, if_pos (str_length_pos acc h), List.map_cons]
    show _ = String.intercalate.go (acc ++ ", " ++ c.getRef) ", " (cs.map Comp.getRef)
    apply ih
    simp [h]

theorem buildRefs_intercalate (c : Comp) (gs : List Comp) (h : c.getRef ≠ "") :
    buildRefs (c :: gs) = String.intercalate ", " ((c :: gs).map Comp.getRef) := by
  have hdata : c.getRef.data ≠ [] := (str_ne_empty_iff _).mp h
  rw [buildRefs, List.foldl_cons, if_neg (by decide), String.empty_append, List.map_cons]
  show _ = String.intercalate.go c.getRef ", " (gs.map Comp.getRef)
  exact buildRefs_go gs c.getRef hdata

/-! ### Exclusion-filter lemmas -/

theorem foldl_if_append {α : Type} (P : α → Prop) [DecidablePred P]
    (l : List α) (acc : List α) :
    l.foldl (fun acc x => if P x then acc ++ [x] else acc) acc
      = acc ++ l.filter (fun x => decide (P x)) := by
  induction l generalizing acc with
  | nil => simp
  | cons x xs ih =>
    rw [List.foldl_cons]
    by_cases h : P x
    · rw [if_pos h, ih, List.filter_cons, if_pos (by simpa using h), List.append_assoc]
      rfl
    · rw [if_neg h, ih, List.filter_cons, if_neg (by simpa using h)]

theorem filteredComponents_eq_filter (cs : List Comp) :
    filteredComponents cs
      = cs.filter (fun c => decide (getCaseInsensitiveField c "exclude" = none)) := by
  simpa [filteredComponents] using
    foldl_if_append (fun c => getCaseInsensitiveField c "exclude" = none) cs []

/-! ### Grouping lemmas -/

theorem addToGroups_sum (equ : Comp → Comp → Bool) (groups : List (List Comp)) (c : Comp) :
    ((addToGroups equ groups c).map List.length).sum
      = (groups.map List.length).sum + 1 := by
  induction groups with
  | nil => simp [addToGroups]
  | cons g rest ih =>
    rw [addToGroups]
    by_cases h : equ c (g.headD default)
    · simp only [if_pos h, List.map_cons, List.sum_cons, List.length_append]
      simp
      omega
    · simp only [if_neg h, List.map_cons, List.sum_cons, ih]
      omega

theorem addToGroups_flatten (equ : Comp → Comp → Bool) (groups : List (List Comp)) (c : Comp) :
    List.Perm (addToGroups equ groups c).flatten (groups.flatten ++ [c]) := by
  induction groups with
  | nil => simp [addToGroups]
  | cons g rest ih =>
    rw [addToGroups]
    by_cases h : equ c (g.headD default)
    · rw [if_pos h]
      simp only [List.flatten_cons, List.append_assoc]
      exact (List.Perm.append_left g (List.perm_append_comm)).trans
        (by simp [List.append_assoc])
    · rw [if_neg h]
      simp only [List.flatten_cons, List.append_assoc]
      exact List.Perm.append_left g (by simpa using ih)

theorem foldl_addToGroups_sum (equ : Comp → Comp → Bool) (cs : List Comp) :
    ∀ groups, ((cs.foldl (addToGroups equ) groups).map List.length).sum
      = (groups.map List.length).sum + cs.length := by
  induction cs with
  | nil => simp
  | cons c cs ih =>
    intro groups
    rw [List.foldl_cons, ih, addToGroups_sum]
    simp
    omega

theorem foldl_addToGroups_flatten (equ : Comp → Comp → Bool) (cs : List Comp) :
    ∀ groups, List.Perm (cs.foldl (addToGroups equ) groups).flatten (groups.flatten ++ cs) := by
  induction cs with
  | nil => simp
  | cons c cs ih =>
    intro groups
    rw [List.foldl_cons]
    refine (ih _).trans ?_
    refine (List.Perm.append_right cs (addToGroups_flatten equ groups c)).trans ?_
    simp [List.append_assoc]

theorem groupComponents_sum (equ : Comp → Comp → Bool) (cs : List Comp) :
    ((groupComponents equ cs).map List.length).sum = cs.length := by
  simpa [groupComponents] using foldl_addToGroups_sum equ cs []

theorem groupComponents_flatten (equ : Comp → Comp → Bool) (cs : List Comp) :
    List.Perm (groupComponents equ cs).flatten cs := by
  simpa [groupComponents] using foldl_addToGroups_flatten equ cs []

/-! ### Unique-match characterization of the Field Accessor -/

theorem getField_of_unique (c : Comp) (n : String) (f : String × String)
    (hf : f ∈ c.fields) (huniq : ∀ g ∈ c.fields, toLower g.1 = toLower n → g = f)
    (hmatch : toLower f.1 = toLower n) :
    c.getField f.1 = f.2 := by
  rw [Comp.getField]
  cases hfind : c.fields.find? (fun g => g.1 = f.1) with
  | none =>
    exfalso
    rw [List.find?_eq_none] at hfind
    have := hfind f hf
    simp at this
  | some g =>
    have hg1 : g.1 = f.1 := by simpa using List.find?_some hfind
    have hgmem := List.mem_of_find?_eq_some hfind
    have hgf : g = f := huniq g hgmem (by rw [hg1, hmatch])
    rw [hgf]
    rfl

theorem getCaseInsensitiveField_unique (c : Comp) (n : String) (f : String × String)
    (hf : f ∈ c.fields) (hmatch : toLower f.1 = toLower n)
    (huniq : ∀ g ∈ c.fields, toLower g.1 = toLower n → g = f) :
    getCaseInsensitiveField c n = some f.2 := by
  simp only [getCaseInsensitiveField]
  cases hidx : (c.getFieldNames.map toLower).findIdx? (fun m => m = toLower n) with
  | none =>
    exfalso
    rw [List.findIdx?_eq_none_iff] at hidx
    have hmem : toLower f.1 ∈ c.getFieldNames.map toLower :=
      List.mem_map_of_mem toLower (List.mem_map_of_mem Prod.fst hf)
    have := hidx _ hmem
    simp [hmatch] at this
  | some i =>
    rw [List.findIdx?_eq_some_iff_getElem] at hidx
    obtain ⟨hlt, hpred, -⟩ := hidx
    have hlen : i < c.fields.length := by
      simpa [Comp.getFieldNames] using hlt
    have hElem : (c.getFieldNames.map toLower)[i] = toLower ((c.fields[i]).1) := by
      simp [Comp.getFieldNames]
    rw [hElem] at hpred
    simp only [decide_eq_true_eq] at hpred
    have heq : c.fields[i] = f := huniq _ (List.getElem_mem hlen) hpred
    have hget? : c.getFieldNames.get? i = some ((c.fields[i]).1) := by
      simp [Comp.getFieldNames, List.get?_eq_getElem?, List.getElem?_eq_getElem hlen]
    show Option.map c.getField (c.getFieldNames.get? i) = some f.2
    rw [hget?, Option.map_some', heq]
    exact congrArg some (getField_of_unique c n f hf huniq hmatch)

/-! ### Claim theorems -/

/-- C1 (code bug evaluation): at two components with no HMT fields and
identical value, part name and footprint, `myEqu` returns `None` — not
`True` as the claim (and the script's own docstring, which promises
grouping by value) requires; the fallback chain never assigns `True`. -/
theorem c1_fallback_equal_triple_returns_none :
    compR1.getValue = compR2.getValue
      ∧ compR1.getPartName = compR2.getPartName
      ∧ compR1.getFootprint = compR2.getFootprint
      ∧ hmtUnion compR1 compR2 = []
      ∧ myEqu compR1 compR2 = none
      ∧ myEqu compR1 compR2 ≠ some true := by
  decide

/-- C2: when at least one side carries an HMT field, `myEqu` returns the
conjunction, over the union of the two components' HMT field names, of
equality of the case-insensitive lookups (absence comparing as `None`),
and the result does not consult value, part name or footprint: replacing
all three on both sides leaves the result unchanged. -/
theorem c2_hmt_path_conjunction (a b : Comp) (v p f v' p' f' : String)
    (h : hmtUnion a b ≠ []) :
    myEqu a b = some (hmtAllEq a b)
      ∧ myEqu { a with value := v, partName := p, footprint := f }
          { b with value := v', partName := p', footprint := f' } = myEqu a b := by
  refine ⟨myEqu_hmt_path a b h, ?_⟩
  have hupd : equByHMTFields { a with value := v, partName := p, footprint := f }
      { b with value := v', partName := p', footprint := f' } = equByHMTFields a b := rfl
  have hsome := equByHMTFields_eq_some a b h
  simp [myEqu, hupd, hsome]

/-- Witness for C2 at concrete components with a shared description
field and fresh value / part-name / footprint strings. -/
theorem c2_hmt_path_conjunction_witness :
    myEqu compD1 compD2 = some (hmtAllEq compD1 compD2)
      ∧ myEqu { compD1 with value := "a", partName := "b", footprint := "c" }
          { compD2 with value := "d", partName := "e", footprint := "f" }
          = myEqu compD1 compD2 :=
  c2_hmt_path_conjunction compD1 compD2 "a" "b" "c" "d" "e" "f" (by decide)

/-- C3: two components sharing at least one HMT field with equal values
on both sides, and with no HMT field present on either side holding
differing values (absence counting as a value), are equivalent — `myEqu`
returns `True` whatever their value, part name and footprint are. -/
theorem c3_shared_hmt_forces_true (a b : Comp)
    (hshared : ∃ n ∈ hmtFieldNames, getCaseInsensitiveField a n ≠ none
      ∧ getCaseInsensitiveField a n = getCaseInsensitiveField b n)
    (hagree : ∀ n ∈ hmtFieldNames,
      (getCaseInsensitiveField a n ≠ none ∨ getCaseInsensitiveField b n ≠ none) →
        getCaseInsensitiveField a n = getCaseInsensitiveField b n) :
    myEqu a b = some true := by
  obtain ⟨n0, hn0mem, hn0some, -⟩ := hshared
  have hn0l : toLower n0 ∈ a.getFieldNames.map toLower := by
    by_contra hcon
    exact hn0some ((getCaseInsensitiveField_eq_none_iff a n0).mpr hcon)
  have hn0U : n0 ∈ hmtUnion a b := (mem_hmtUnion_iff a b n0).mpr ⟨hn0mem, Or.inl hn0l⟩
  have hne : hmtUnion a b ≠ [] := fun hnil => by simp [hnil] at hn0U
  rw [myEqu_hmt_path a b hne]
  have hall : hmtAllEq a b = true := by
    simp only [hmtAllEq, decide_eq_true_eq]
    intro n hn
    obtain ⟨hnmem, hside⟩ := (mem_hmtUnion_iff a b n).mp hn
    apply hagree n hnmem
    rcases hside with hl | hl
    · exact Or.inl fun hcon => ((getCaseInsensitiveField_eq_none_iff a n).mp hcon) hl
    · exact Or.inr fun hcon => ((getCaseInsensitiveField_eq_none_iff b n).mp hcon) hl
  rw [hall]

/-- Witness for C3 at concrete components whose shared `description`
field agrees while value, part name and footprint all differ. -/
theorem c3_shared_hmt_forces_true_witness : myEqu compD1 compD2 = some true :=
  c3_shared_hmt_forces_true compD1 compD2 (by decide) (by decide)

/-- C4: the Field Accessor returns `None` exactly when no field name
matches case-insensitively, and when a unique field matches after
lower-casing both names it returns that field's string value; being a
total function it fails on no input. -/
theorem c4_field_accessor_correct (c : Comp) (n : String) :
    ((∀ f ∈ c.fields, toLower f.1 ≠ toLower n) → getCaseInsensitiveField c n = none)
      ∧ ∀ f ∈ c.fields, toLower f.1 = toLower n →
          (∀ g ∈ c.fields, toLower g.1 = toLower n → g = f) →
          getCaseInsensitiveField c n = some f.2 := by
  constructor
  · intro hnone
    rw [getCaseInsensitiveField_eq_none_iff]
    intro hmem
    rw [List.mem_map] at hmem
    obtain ⟨name, hnamemem, hlow⟩ := hmem
    rw [Comp.getFieldNames, List.mem_map] at hnamemem
    obtain ⟨f, hfmem, rfl⟩ := hnamemem
    exact hnone f hfmem hlow
  · intro f hf hmatch huniq
    exact getCaseInsensitiveField_unique c n f hf hmatch huniq

/-- Witness for C4: an absent name yields `None` and a differently-cased
unique match yields the field value. -/
theorem c4_field_accessor_correct_witness :
    getCaseInsensitiveField compM1 "xyz" = none
      ∧ getCaseInsensitiveField compM1 "mfg1" = some "Acme" :=
  ⟨(c4_field_accessor_correct compM1 "xyz").1 (by decide),
   (c4_field_accessor_correct compM1 "mfg1").2 ("MFG1", "Acme")
     (by decide) (by decide) (by decide)⟩

/-- C5: the exclusion filter keeps exactly the components whose
case-insensitive `exclude` lookup is the absence marker — dropping any
component with a present `exclude` field, empty-valued or not — and the
kept components form an order-preserving sublist of the input. -/
theorem c5_exclusion_filter (cs : List Comp) (c : Comp) :
    (c ∈ filteredComponents cs
        ↔ c ∈ cs ∧ getCaseInsensitiveField c "exclude" = none)
      ∧ List.Sublist (filteredComponents cs) cs := by
  rw [filteredComponents_eq_filter]
  constructor
  · rw [List.mem_filter]
    simp
  · exact List.filter_sublist cs

/-- C6 counterexample: in a non-empty group whose first component has an
empty reference designator, the emitted references cell is not the
comma-space join of the designators — the loop omits the separator while
the accumulator is still empty. -/
theorem c6_row_builder_counterexample :
    groupEmptyRef ≠ []
      ∧ (rowOf groupEmptyRef).get? 1
          ≠ some (String.intercalate ", " (groupEmptyRef.map Comp.getRef)) := by
  decide

/-- C6 (amended): for every non-empty group whose first component has a
non-empty reference designator, the row's first cell is the group size
and its second cell is the reference designators joined by the separator
in group order. -/
theorem c6_row_builder_amended (c : Comp) (gs : List Comp) (h : c.getRef ≠ "") :
    (rowOf (c :: gs)).get? 0 = some (toString (c :: gs).length)
      ∧ (rowOf (c :: gs)).get? 1
          = some (String.intercalate ", " ((c :: gs).map Comp.getRef)) := by
  refine ⟨rfl, ?_⟩
  show some (buildRefs (c :: gs)) = _
  exact congrArg some (buildRefs_intercalate c gs h)

/-- Witness for the amended C6 at a concrete two-component group. -/
theorem c6_row_builder_amended_witness :
    (rowOf (compQ1 :: [compQ2])).get? 0 = some (toString (compQ1 :: [compQ2]).length)
      ∧ (rowOf (compQ1 :: [compQ2])).get? 1
          = some (String.intercalate ", " ((compQ1 :: [compQ2]).map Comp.getRef)) :=
  c6_row_builder_amended compQ1 [compQ2] (by decide)

/-- A `filterMap` by `writtenCells` over pure `writeRow` effects recovers
exactly the written cell lists. -/
theorem filterMap_writtenCells_writeRows
    (f : List (String × String) → List String) (rows : List (List (String × String))) :
    (rows.map (fun row => Effect.writeRow (f row))).filterMap writtenCells
      = rows.map f := by
  induction rows with
  | nil => rfl
  | cons r rs ih => simp [List.filterMap_cons, writtenCells, ih]

/-- C7: with the aux file present, a header that misses one of the fixed
columns produces the schema diagnostic and no appended rows, while a
header containing all fixed columns produces no diagnostic and exactly
the data rows, each projected and reordered to the fixed column
schema. -/
theorem c7_aux_merge (fieldnames : List String) (rows : List (List (String × String))) :
    (¬ (∀ c ∈ columns, c ∈ fieldnames) →
        Effect.auxSchemaDiag ∈ auxEffects (some (fieldnames, rows))
          ∧ ∀ cells, Effect.writeRow cells ∉ auxEffects (some (fieldnames, rows)))
      ∧ ((∀ c ∈ columns, c ∈ fieldnames) →
        Effect.auxSchemaDiag ∉ auxEffects (some (fieldnames, rows))
          ∧ (auxEffects (some (fieldnames, rows))).filterMap writtenCells
              = rows.map (fun row => columns.map (rowValueForName row))) := by
  by_cases hsub : ∀ c ∈ columns, c ∈ fieldnames
  · refine ⟨fun hcon => absurd hsub hcon, fun _ => ?_⟩
    have hall : columns.all (fun c => fieldnames.contains c) = true := by
      simp only [List.all_eq_true, List.contains_iff_exists_mem_beq]
      exact fun c hc => ⟨c, hsub c hc, by simp⟩
    simp only [auxEffects]
    rw [if_neg (not_not_intro hall)]
    constructor
    · intro hmem
      rcases List.mem_cons.mp hmem with h | h
      · cases h
      · obtain ⟨row, -, h⟩ := List.mem_map.mp h
        cases h
    · rw [List.filterMap_cons]
      show List.filterMap writtenCells
        (rows.map (fun row => Effect.writeRow (columns.map (rowValueForName row)))) = _
      exact filterMap_writtenCells_writeRows _ rows
  · refine ⟨fun _ => ?_, fun hcon => absurd hcon hsub⟩
    have hall : ¬ (columns.all (fun c => fieldnames.contains c) = true) := by
      simp only [List.all_eq_true, List.contains_iff_exists_mem_beq]
      intro hcon
      exact hsub fun c hc => by
        obtain ⟨x, hx, hbeq⟩ := hcon c hc
        rwa [show c = x from by simpa using hbeq]
    simp only [auxEffects]
    rw [if_pos hall]
    exact ⟨List.mem_cons_of_mem _ (List.mem_cons_self _ _), by simp⟩

/-- Witness for C7 at a concrete aux header containing all fixed columns
and one data row. -/
theorem c7_aux_merge_witness :
    Effect.auxSchemaDiag ∉ auxEffects (some (auxHeaderW, auxRowsW))
      ∧ (auxEffects (some (auxHeaderW, auxRowsW))).filterMap writtenCells
          = auxRowsW.map (fun row => columns.map (rowValueForName row)) :=
  (c7_aux_merge auxHeaderW auxRowsW).2 (by decide)

/-- C8: the grouping pass partitions the filtered component list — the
groups' concatenation is a permutation of the filtered components, so
the sum of the group sizes equals the number of non-excluded
components. -/
theorem c8_groups_partition (cs : List Comp) :
    ((groupComponents myEquTruthy (filteredComponents cs)).map List.length).sum
        = (filteredComponents cs).length
      ∧ List.Perm (groupComponents myEquTruthy (filteredComponents cs)).flatten
          (filteredComponents cs) :=
  ⟨groupComponents_sum _ _, groupComponents_flatten _ _⟩

/-- C9: invoked with an argument count other than three (script name
plus two arguments), the script's trace is exactly the usage message and
exit code 1 — the netlist is never loaded and no row is written. -/
theorem c9_usage_exit (argv : List String) (netlistComponents : List Comp)
    (aux : Option (List String × List (List (String × String))))
    (h : argv.length ≠ 3) :
    scriptTrace argv netlistComponents aux = [Effect.usageMessage, Effect.exitCode 1]
      ∧ Effect.loadNetlist ∉ scriptTrace argv netlistComponents aux
      ∧ ∀ cells, Effect.writeRow cells ∉ scriptTrace argv netlistComponents aux := by
  have ht : scriptTrace argv netlistComponents aux
      = [Effect.usageMessage, Effect.exitCode 1] := by
    simp [scriptTrace, h]
  refine ⟨ht, ?_, ?_⟩ <;> simp [ht]

/-- Witness for C9 at a bare one-element argument vector. -/
theorem c9_usage_exit_witness :
    scriptTrace ["script"] [] none = [Effect.usageMessage, Effect.exitCode 1]
      ∧ Effect.loadNetlist ∉ scriptTrace ["script"] [] none
      ∧ ∀ cells, Effect.writeRow cells ∉ scriptTrace ["script"] [] none :=
  c9_usage_exit ["script"] [] none (by decide)
